import Mathlib

/-!
Verification of the goimghash perceptual-hash core: the DoubleGradient hash
algorithm (`double_gradient.go`) and the greedy similarity clustering of the
batch command (`findSimilarImages`).  Machine integers are modelled as `Nat`
(intensities, 64-bit payload words); fallible operations return `Except`.
-/

namespace GoImgHash

/-- Hash algorithm discriminator (`goimagehash.Kind`). -/
inductive HashKind where
  | AHash
  | PHash
  | DHash
  | WHash
  | DGHash
deriving DecidableEq

/-- `ExtImageHash`: bit-packed payload of 64-bit words, kind tag, exact bit count. -/
structure ExtImageHash where
  hash : List Nat
  kind : HashKind
  bits : Nat
deriving DecidableEq

/-- Modelled from the spec: `NewExtImageHash` (constructor of the hash value,
not under `src/`) builds `HashValue{payload, kind, bitCount}` as a plain record. -/
def NewExtImageHash (hash : List Nat) (kind : HashKind) (bits : Nat) : ExtImageHash :=
  ⟨hash, kind, bits⟩

/-- `nextMultipleOf2` from `double_gradient.go`: round up to the next multiple of 2. -/
def nextMultipleOf2 (x : Nat) : Nat :=
  if x % 2 == 0 then x else x + 1

/-- `doubleGradientHashBits` from `double_gradient.go`: horizontal gradient bits
(row-major, `x` from 1) followed by vertical gradient bits (column-major, `y`
from 1), over a flat row-major pixel buffer with `rowstride = width`. -/
def doubleGradientHashBits (pixels : Nat → Nat) (width height : Nat) : List Bool :=
  let rowstride := width
  let horiz := (List.range height).flatMap (fun y =>
    (List.range (width - 1)).map (fun k =>
      let x := k + 1
      decide (pixels (y * rowstride + x) > pixels (y * rowstride + x - 1))))
  let vert := (List.range width).flatMap (fun x =>
    (List.range (height - 1)).map (fun k =>
      let y := k + 1
      decide (pixels (y * rowstride + x) > pixels ((y - 1) * rowstride + x))))
  horiz ++ vert

/-- Reference bit sequence written from the spec's words (§4.2): horizontal pass
`grid[y][x] > grid[y][x-1]` for `y ∈ [0,sh)`, `x ∈ [1,sw)` in row-major order,
then vertical pass `grid[y][x] > grid[y-1][x]` for `x ∈ [0,sw)`, `y ∈ [1,sh)`
in column-major order; ties give `false`. -/
def specDoubleGradientBits (grid : Nat → Nat → Nat) (sw sh : Nat) : List Bool :=
  let horiz := (List.range sh).flatMap (fun y =>
    (List.range (sw - 1)).map (fun k =>
      let x := k + 1
      decide (grid y x > grid y (x - 1))))
  let vert := (List.range sw).flatMap (fun x =>
    (List.range (sh - 1)).map (fun k =>
      let y := k + 1
      decide (grid y x > grid (y - 1) x)))
  horiz ++ vert

/-- Congruence for `List.flatMap` restricted to members. -/
theorem bind_congr_on {α β : Type} {l : List α} {f g : α → List β}
    (h : ∀ a ∈ l, f a = g a) : l.flatMap f = l.flatMap g := by
  induction l with
  | nil => rfl
  | cons a l ih =>
    simp only [List.flatMap_cons]
    rw [h a (List.mem_cons_self a l), ih (fun a ha => h a (List.mem_cons_of_mem _ ha))]

/-- Congruence for `List.map` restricted to members. -/
theorem map_congr_on {α β : Type} {l : List α} {f g : α → β}
    (h : ∀ a ∈ l, f a = g a) : l.map f = l.map g := by
  induction l with
  | nil => rfl
  | cons a l ih =>
    simp only [List.map_cons]
    rw [h a (List.mem_cons_self a l), ih (fun a ha => h a (List.mem_cons_of_mem _ ha))]

/-- C1: for every intensity grid of size `sw × sh`, the bit sequence produced by
the DoubleGradient computation equals the reference definition: all
horizontal-pass bits (`grid[y][x] > grid[y][x-1]`, row-major) first, then all
vertical-pass bits (`grid[y][x] > grid[y-1][x]`, column-major), with strict `>`
so ties yield `false`. -/
theorem doubleGradient_bits_match_spec (pixels : Nat → Nat) (grid : Nat → Nat → Nat)
    (sw sh : Nat) (h : ∀ y, y < sh → ∀ x, x < sw → pixels (y * sw + x) = grid y x) :
    doubleGradientHashBits pixels sw sh = specDoubleGradientBits grid sw sh := by
  unfold doubleGradientHashBits specDoubleGradientBits
  simp only []
  congr 1
  · apply bind_congr_on
    intro y hy
    rw [List.mem_range] at hy
    apply map_congr_on
    intro k hk
    rw [List.mem_range] at hk
    have hx1 : k + 1 < sw := by omega
    have e1 : pixels (y * sw + (k + 1)) = grid y (k + 1) := h y hy (k + 1) hx1
    have e2 : pixels (y * sw + (k + 1) - 1) = grid y k := by
      have : y * sw + (k + 1) - 1 = y * sw + k := by omega
      rw [this]
      exact h y hy k (by omega)
    simp only [e1, e2, Nat.add_sub_cancel]
  · apply bind_congr_on
    intro x hx
    rw [List.mem_range] at hx
    apply map_congr_on
    intro k hk
    rw [List.mem_range] at hk
    have hy1 : k + 1 < sh := by omega
    have e1 : pixels ((k + 1) * sw + x) = grid (k + 1) x := h (k + 1) hy1 x hx
    have e2 : pixels (k * sw + x) = grid k x := h k (by omega) x hx
    simp only [Nat.add_sub_cancel, e1, e2]

/-- C1 witness: the refinement theorem applied to a concrete 3×2 grid. -/
theorem doubleGradient_bits_match_spec_witness :
    doubleGradientHashBits (fun i => i * i % 7) 3 2
      = specDoubleGradientBits (fun y x => (y * 3 + x) * (y * 3 + x) % 7) 3 2 :=
  doubleGradient_bits_match_spec (fun i => i * i % 7)
    (fun y x => (y * 3 + x) * (y * 3 + x) % 7) 3 2
    (fun _ _ _ _ => rfl)

/-- `bitsToBytes` inner loop from `double_gradient.go`: accumulate bits into
`currentWord` at position `bitPos` (LSB first), flush a word every 64 bits,
and flush the final partial word if any bits remain. -/
def bitsToBytesAux : List Bool → Nat → Nat → List Nat
  | [], currentWord, bitPos => if bitPos > 0 then [currentWord] else []
  | b :: rest, currentWord, bitPos =>
    let w := if b then currentWord ||| (1 <<< bitPos) else currentWord
    if bitPos + 1 ≥ 64 then w :: bitsToBytesAux rest 0 0
    else bitsToBytesAux rest w (bitPos + 1)

/-- `bitsToBytes` from `double_gradient.go`: pack booleans into 64-bit words,
least-significant-bit first. -/
def bitsToBytes (bits : List Bool) : List Nat :=
  bitsToBytesAux bits 0 0

/-- Length of the packed word list produced by the packing loop, as a function
of the pending bit position and the remaining bits. -/
theorem bitsToBytesAux_length (bits : List Bool) :
    ∀ p w, p < 64 →
      (bitsToBytesAux bits w p).length =
        if p + bits.length = 0 then 0 else (p + bits.length + 63) / 64 := by
  induction bits with
  | nil =>
    intro p w hp
    simp only [bitsToBytesAux, List.length_nil]
    by_cases h : p > 0
    · rw [if_pos h, if_neg (by omega)]
      simp only [List.length_cons, List.length_nil]
      omega
    · rw [if_neg h, if_pos (by omega)]
      rfl
  | cons b rest ih =>
    intro p w hp
    simp only [bitsToBytesAux, List.length_cons]
    by_cases h : p + 1 ≥ 64
    · rw [if_pos h]
      simp only [List.length_cons]
      rw [ih 0 0 (by omega)]
      have hp63 : p = 63 := by omega
      subst hp63
      by_cases hr : rest.length = 0
      · rw [if_pos (by omega), if_neg (by omega)]
        omega
      · rw [if_neg (by omega), if_neg (by omega)]
        omega
    · rw [if_neg h]
      rw [ih (p + 1) _ (by omega)]
      rw [if_neg (by omega), if_neg (by omega)]
      congr 1
      omega

/-- Packed length of `bitsToBytes`: `⌈n/64⌉` words for `n` input bits. -/
theorem bitsToBytes_length (bits : List Bool) :
    (bitsToBytes bits).length =
      if bits.length = 0 then 0 else (bits.length + 63) / 64 := by
  have := bitsToBytesAux_length bits 0 0 (by omega)
  simpa using this

/-- Bit-level content of the packing loop: emitted bit `i` lands at bit position
`(p + i) % 64` of word `(p + i) / 64`, and pending low bits of the current word
are preserved into word 0. -/
theorem bitsToBytesAux_testBit (bits : List Bool) :
    ∀ p w, p < 64 → w < 2 ^ p →
      (∀ i, i < bits.length →
        Nat.testBit ((bitsToBytesAux bits w p).getD ((p + i) / 64) 0) ((p + i) % 64)
          = bits.getD i false)
      ∧ (∀ j, j < p →
        Nat.testBit ((bitsToBytesAux bits w p).getD 0 0) j = Nat.testBit w j) := by
  induction bits with
  | nil =>
    intro p w hp hw
    constructor
    · intro i hi
      simp at hi
    · intro j hj
      have hp0 : p > 0 := by omega
      simp only [bitsToBytesAux, if_pos hp0, List.getD_cons_zero]
  | cons b rest ih =>
    intro p w hp hw
    have h1p : (1 : Nat) <<< p = 2 ^ p := by
      rw [Nat.shiftLeft_eq, one_mul]
    have hw' : (if b then w ||| (1 <<< p) else w) < 2 ^ (p + 1) := by
      have h2 : (2 : Nat) ^ p < 2 ^ (p + 1) := by
        apply Nat.pow_lt_pow_right (by omega) (by omega)
      by_cases hb : b
      · rw [if_pos hb, h1p]
        exact Nat.or_lt_two_pow (by omega) (by omega)
      · rw [if_neg hb]
        omega
    have htop : Nat.testBit (if b then w ||| (1 <<< p) else w) p = b := by
      have hwp : Nat.testBit w p = false := Nat.testBit_lt_two_pow hw
      by_cases hb : b
      · rw [if_pos hb, h1p, Nat.testBit_or, hwp, Nat.testBit_two_pow_self, hb]
        rfl
      · rw [if_neg hb, hwp]
        simp [hb]
    have hlow : ∀ j, j < p →
        Nat.testBit (if b then w ||| (1 <<< p) else w) j = Nat.testBit w j := by
      intro j hj
      by_cases hb : b
      · rw [if_pos hb, h1p, Nat.testBit_or, Nat.testBit_two_pow_of_ne (by omega)]
        simp
      · rw [if_neg hb]
    by_cases hflush : p + 1 ≥ 64
    · have hp63 : p = 63 := by omega
      subst hp63
      have ihr := ih 0 0 (by omega) (by omega)
      constructor
      · intro i hi
        simp only [bitsToBytesAux, if_pos hflush]
        match i with
        | 0 =>
          simp only [Nat.add_zero]
          have hd : (63 : Nat) / 64 = 0 := by omega
          have hm : (63 : Nat) % 64 = 63 := by omega
          rw [hd, hm, List.getD_cons_zero, htop, List.getD_cons_zero]
        | Nat.succ i' =>
          have hd : (63 + (i' + 1)) / 64 = (0 + i') / 64 + 1 := by omega
          have hm : (63 + (i' + 1)) % 64 = (0 + i') % 64 := by omega
          rw [hd, hm, List.getD_cons_succ]
          have := ihr.1 i' (by simpa using hi)
          rw [this]
          simp
      · intro j hj
        simp only [bitsToBytesAux, if_pos hflush, List.getD_cons_zero]
        exact hlow j hj
    · have ihr := ih (p + 1) _ (by omega) hw'
      constructor
      · intro i hi
        simp only [bitsToBytesAux, if_neg hflush]
        match i with
        | 0 =>
          simp only [Nat.add_zero]
          have hd : p / 64 = 0 := by omega
          have hm : p % 64 = p := by omega
          rw [hd, hm]
          have := ihr.2 p (by omega)
          rw [this, htop, List.getD_cons_zero]
        | Nat.succ i' =>
          have hd : p + (i' + 1) = (p + 1) + i' := by omega
          rw [hd]
          have := ihr.1 i' (by simpa using hi)
          rw [this]
          simp
      · intro j hj
        simp only [bitsToBytesAux, if_neg hflush]
        have := ihr.2 j (by omega)
        rw [this]
        exact hlow j hj

/-- C3: the packed payload places emitted bits least-significant-bit-first in
64-bit words: emitted bit `i` occupies bit position `i % 64` of payload word
`i / 64`; in particular bit 0 occupies bit 0 of the first word. -/
theorem bitsToBytes_lsb_first (bits : List Bool) (i : Nat) (hi : i < bits.length) :
    Nat.testBit ((bitsToBytes bits).getD (i / 64) 0) (i % 64) = bits.getD i false := by
  have h := (bitsToBytesAux_testBit bits 0 0 (by omega) (by omega)).1 i hi
  simpa [bitsToBytes] using h

/-- C3 witness: packing `[true, false, true]` puts bit 2 of the emitted stream
at bit position 2 of word 0. -/
theorem bitsToBytes_lsb_first_witness :
    2 < ([true, false, true] : List Bool).length
      ∧ Nat.testBit ((bitsToBytes [true, false, true]).getD (2 / 64) 0) (2 % 64)
          = ([true, false, true] : List Bool).getD 2 false :=
  ⟨by decide, bitsToBytes_lsb_first [true, false, true] 2 (by decide)⟩

/-- A decoded raster image: bounds plus a grayscale intensity per pixel. -/
structure Image where
  width : Nat
  height : Nat
  pixelAt : Nat → Nat → Nat

/-- `DoubleGradientHash` from `double_gradient.go`: round the requested
dimensions up to even, resample to `(width/2+1) × (height/2+1)` (the external
Lanczos3 resampler is a parameter `resizeFn` producing the flat grayscale
buffer), compute the gradient bits, pack them, and return the hash with a `nil`
error — the Go function has no failing path. -/
def DoubleGradientHash (resizeFn : Image → Nat → Nat → (Nat → Nat))
    (img : Image) (width height : Nat) : Except String ExtImageHash :=
  let width2 := nextMultipleOf2 width
  let height2 := nextMultipleOf2 height
  let resizeWidth := width2 / 2 + 1
  let resizeHeight := height2 / 2 + 1
  let pixels := resizeFn img resizeWidth resizeHeight
  let hashBits := doubleGradientHashBits pixels resizeWidth resizeHeight
  Except.ok (NewExtImageHash (bitsToBytes hashBits) HashKind.DGHash hashBits.length)

/-- Length of a `flatMap` over `range` with constant-length blocks. -/
theorem length_flatMap_range {α : Type} (n : Nat) (f : Nat → List α) (m : Nat)
    (h : ∀ a, (f a).length = m) : ((List.range n).flatMap f).length = n * m := by
  induction n with
  | zero => simp
  | succ n ih =>
    rw [List.range_succ, List.flatMap_append, List.length_append, ih]
    simp only [List.flatMap_cons, List.flatMap_nil, List.append_nil, h]
    rw [Nat.succ_mul]

/-- The gradient pass emits `h*(w-1)` horizontal plus `w*(h-1)` vertical bits. -/
theorem doubleGradientHashBits_length (pixels : Nat → Nat) (w h : Nat) :
    (doubleGradientHashBits pixels w h).length = h * (w - 1) + w * (h - 1) := by
  unfold doubleGradientHashBits
  rw [List.length_append]
  rw [length_flatMap_range h _ (w - 1) (fun a => by simp)]
  rw [length_flatMap_range w _ (h - 1) (fun a => by simp)]

/-- `nextMultipleOf2` rounds up to the nearest even integer: the result is even,
at least the input, and exceeds it by at most one. -/
theorem nextMultipleOf2_round (x : Nat) :
    nextMultipleOf2 x % 2 = 0 ∧ x ≤ nextMultipleOf2 x ∧ nextMultipleOf2 x ≤ x + 1 := by
  unfold nextMultipleOf2
  by_cases h : x % 2 = 0
  · rw [if_pos (by simp [h])]
    omega
  · rw [if_neg (by simp [h])]
    omega

/-- C2: for every requested width and height, `DoubleGradientHash` returns a
hash whose bit count is `sh*(sw-1) + sw*(sh-1)` with `sw = width_rounded/2 + 1`,
`sh = height_rounded/2 + 1`, the dimensions rounded up to the nearest even
integer by `nextMultipleOf2`. -/
theorem doubleGradient_bitCount (resizeFn : Image → Nat → Nat → (Nat → Nat))
    (img : Image) (width height : Nat) :
    (nextMultipleOf2 width % 2 = 0 ∧ width ≤ nextMultipleOf2 width
        ∧ nextMultipleOf2 width ≤ width + 1)
      ∧ (nextMultipleOf2 height % 2 = 0 ∧ height ≤ nextMultipleOf2 height
        ∧ nextMultipleOf2 height ≤ height + 1)
      ∧ ∃ hv, DoubleGradientHash resizeFn img width height = Except.ok hv ∧
          hv.bits =
            (nextMultipleOf2 height / 2 + 1) * (nextMultipleOf2 width / 2 + 1 - 1)
              + (nextMultipleOf2 width / 2 + 1) * (nextMultipleOf2 height / 2 + 1 - 1) := by
  refine ⟨nextMultipleOf2_round width, nextMultipleOf2_round height, _, rfl, ?_⟩
  simp only [NewExtImageHash]
  rw [doubleGradientHashBits_length]

/-- C8: every hash value constructed by `DoubleGradientHash` satisfies the
payload invariant `bitCount ≤ len(payload) * 64` and
`bitCount > (len(payload) - 1) * 64` (over the integers): no fully-unused
trailing word. -/
theorem doubleGradient_payload_invariant (resizeFn : Image → Nat → Nat → (Nat → Nat))
    (img : Image) (width height : Nat) (hv : ExtImageHash)
    (h : DoubleGradientHash resizeFn img width height = Except.ok hv) :
    hv.bits ≤ hv.hash.length * 64 ∧ ((hv.hash.length : Int) - 1) * 64 < (hv.bits : Int) := by
  have hhv : hv = NewExtImageHash
      (bitsToBytes (doubleGradientHashBits
        (resizeFn img (nextMultipleOf2 width / 2 + 1) (nextMultipleOf2 height / 2 + 1))
        (nextMultipleOf2 width / 2 + 1) (nextMultipleOf2 height / 2 + 1)))
      HashKind.DGHash
      (doubleGradientHashBits
        (resizeFn img (nextMultipleOf2 width / 2 + 1) (nextMultipleOf2 height / 2 + 1))
        (nextMultipleOf2 width / 2 + 1) (nextMultipleOf2 height / 2 + 1)).length := by
    have := h.symm
    unfold DoubleGradientHash at this
    simp only [Except.ok.injEq] at this
    exact this
  subst hhv
  simp only [NewExtImageHash]
  rw [bitsToBytes_length]
  set n := (doubleGradientHashBits
      (resizeFn img (nextMultipleOf2 width / 2 + 1) (nextMultipleOf2 height / 2 + 1))
      (nextMultipleOf2 width / 2 + 1) (nextMultipleOf2 height / 2 + 1)).length with hn
  by_cases h0 : n = 0
  · rw [if_pos h0, h0]
    omega
  · rw [if_neg h0]
    omega

/-- C8 witness: the invariant theorem applied to a concrete all-zero 1×1 image
hashed at requested size 2×2 (4 emitted bits, one payload word). -/
theorem doubleGradient_payload_invariant_witness :
    (NewExtImageHash [0] HashKind.DGHash 4).bits
        ≤ (NewExtImageHash [0] HashKind.DGHash 4).hash.length * 64
      ∧ (((NewExtImageHash [0] HashKind.DGHash 4).hash.length : Int) - 1) * 64
          < ((NewExtImageHash [0] HashKind.DGHash 4).bits : Int) :=
  doubleGradient_payload_invariant (fun _ _ _ => fun _ => 0)
    ⟨1, 1, fun _ _ => 0⟩ 2 2 (NewExtImageHash [0] HashKind.DGHash 4) (by rfl)

/-- C5 counterexample: the claim says the computation fails (returns an error)
when the source image has zero width; on the code it returns `ok` even for a
zero-width source image — `DoubleGradientHash` has no error path at all. -/
theorem doubleGradient_zero_width_still_ok :
    (⟨0, 5, fun _ _ => 0⟩ : Image).width = 0
      ∧ (DoubleGradientHash (fun _ _ _ => fun _ => 0) ⟨0, 5, fun _ _ => 0⟩ 8 8).isOk = true :=
  ⟨rfl, by rfl⟩

/-- C5 (amended): `DoubleGradientHash` never returns an error: for every
resampler, source image and requested dimensions it returns `ok`; the Go
function's error result is unconditionally `nil`. -/
theorem doubleGradient_never_fails (resizeFn : Image → Nat → Nat → (Nat → Nat))
    (img : Image) (width height : Nat) :
    ∃ hv, DoubleGradientHash resizeFn img width height = Except.ok hv :=
  ⟨_, rfl⟩

/-- `ToBase64` serialization step 1 from `double_gradient.go`: one 64-bit word
becomes 8 bytes, least-significant byte first (`word >> (i*8) & 0xFF`). -/
def wordToBytes (w : Nat) : List Nat :=
  (List.range 8).map (fun i => (w >>> (i * 8)) &&& 0xFF)

/-- The standard base64 alphabet used by Go's `base64.RawStdEncoding`. -/
def base64Alphabet : List Char :=
  ['A', 'B', 'C', 'D', 'E', 'F', 'G', 'H', 'I', 'J', 'K', 'L', 'M',
   'N', 'O', 'P', 'Q', 'R', 'S', 'T', 'U', 'V', 'W', 'X', 'Y', 'Z',
   'a', 'b', 'c', 'd', 'e', 'f', 'g', 'h', 'i', 'j', 'k', 'l', 'm',
   'n', 'o', 'p', 'q', 'r', 's', 't', 'u', 'v', 'w', 'x', 'y', 'z',
   '0', '1', '2', '3', '4', '5', '6', '7', '8', '9', '+', '/']

/-- Sextet stream of unpadded standard base64: each group of 3 input bytes
yields 4 sextets; a trailing group of 1 or 2 bytes yields 2 or 3 sextets. -/
def encodeGroups : List Nat → List Nat
  | [] => []
  | [b1] => [b1 / 4, b1 % 4 * 16]
  | [b1, b2] => [b1 / 4, b1 % 4 * 16 + b2 / 16, b2 % 16 * 4]
  | b1 :: b2 :: b3 :: rest =>
    b1 / 4 :: (b1 % 4 * 16 + b2 / 16) :: (b2 % 16 * 4 + b3 / 64) :: b3 % 64
      :: encodeGroups rest

/-- Go's `base64.RawStdEncoding.EncodeToString`: standard alphabet, no padding. -/
def rawStdEncode (bytes : List Nat) : List Char :=
  (encodeGroups bytes).map (fun v => base64Alphabet.getD v 'A')

/-- `ToBase64` from `double_gradient.go`: serialize the payload words to bytes
(LSB first), truncate to `⌈bits/8⌉` bytes when the word-aligned byte list is
longer, and encode with unpadded standard base64. -/
def ToBase64 (h : ExtImageHash) : List Char :=
  let hashBytes := h.hash.flatMap wordToBytes
  let truncated :=
    if h.bits < hashBytes.length * 8 then
      hashBytes.take (h.bits / 8 + (if h.bits % 8 ≠ 0 then 1 else 0))
    else hashBytes
  rawStdEncode truncated

/-- The sextet stream of `n` bytes has `⌈4n/3⌉` entries. -/
theorem encodeGroups_length (l : List Nat) :
    (encodeGroups l).length = (4 * l.length + 2) / 3 := by
  induction l using encodeGroups.induct with
  | case1 => rfl
  | case2 b1 => simp [encodeGroups]
  | case3 b1 b2 => simp [encodeGroups]
  | case4 b1 b2 b3 rest ih =>
    simp only [encodeGroups, List.length_cons, ih]
    omega

/-- Unpadded base64 of `n` bytes has `⌈4n/3⌉` characters. -/
theorem rawStdEncode_length (bytes : List Nat) :
    (rawStdEncode bytes).length = (4 * bytes.length + 2) / 3 := by
  unfold rawStdEncode
  rw [List.length_map, encodeGroups_length]

/-- Every character produced by the unpadded encoder differs from `=`. -/
theorem rawStdEncode_no_pad (bytes : List Nat) : '=' ∉ rawStdEncode bytes := by
  intro hmem
  unfold rawStdEncode at hmem
  rw [List.mem_map] at hmem
  obtain ⟨v, _, hv⟩ := hmem
  revert hv
  by_cases hlt : v < 64
  · have hall : ∀ u, u < 64 → base64Alphabet.getD u 'A' ≠ '=' := by decide
    exact hall v hlt
  · rw [List.getD_eq_default]
    · decide
    · simp only [base64Alphabet, List.length_cons, List.length_nil]
      omega

/-- Serializing each payload word yields exactly 8 bytes per word. -/
theorem flatMap_wordToBytes_length (ws : List Nat) :
    (ws.flatMap wordToBytes).length = 8 * ws.length := by
  induction ws with
  | nil => rfl
  | cons w ws ih =>
    simp only [List.flatMap_cons, List.length_append, ih, wordToBytes,
      List.length_map, List.length_range, List.length_cons]
    omega

/-- C4: for every hash value respecting the payload bound, `ToBase64` encodes
exactly `⌈bitCount/8⌉` payload bytes with standard unpadded base64, so its
output has `⌈4·⌈bitCount/8⌉/3⌉` characters and contains no `=`. -/
theorem toBase64_length_no_pad (h : ExtImageHash) (hb : h.bits ≤ h.hash.length * 64) :
    ToBase64 h = rawStdEncode ((h.hash.flatMap wordToBytes).take ((h.bits + 7) / 8))
      ∧ (ToBase64 h).length = (4 * ((h.bits + 7) / 8) + 2) / 3
      ∧ '=' ∉ ToBase64 h := by
  have hlen8 : (h.hash.flatMap wordToBytes).length = 8 * h.hash.length :=
    flatMap_wordToBytes_length h.hash
  have heq : ToBase64 h
      = rawStdEncode ((h.hash.flatMap wordToBytes).take ((h.bits + 7) / 8)) := by
    show rawStdEncode (if h.bits < (h.hash.flatMap wordToBytes).length * 8 then
          (h.hash.flatMap wordToBytes).take (h.bits / 8 + if h.bits % 8 ≠ 0 then 1 else 0)
        else h.hash.flatMap wordToBytes)
      = rawStdEncode ((h.hash.flatMap wordToBytes).take ((h.bits + 7) / 8))
    by_cases hlt : h.bits < (h.hash.flatMap wordToBytes).length * 8
    · rw [if_pos hlt]
      have harg : h.bits / 8 + (if h.bits % 8 ≠ 0 then 1 else 0) = (h.bits + 7) / 8 := by
        by_cases hm : h.bits % 8 ≠ 0
        · rw [if_pos hm]
          omega
        · rw [if_neg hm]
          omega
      rw [harg]
    · rw [if_neg hlt]
      rw [List.take_of_length_le (by omega)]
  refine ⟨heq, ?_, rawStdEncode_no_pad _⟩
  rw [heq, rawStdEncode_length, List.length_take, hlen8]
  omega

/-- C4 witness: the base64 theorem applied to a 10-bit hash with one payload
word, whose encoding has 3 characters and no padding. -/
theorem toBase64_length_no_pad_witness :
    (⟨[0], HashKind.DGHash, 10⟩ : ExtImageHash).bits
        ≤ (⟨[0], HashKind.DGHash, 10⟩ : ExtImageHash).hash.length * 64
      ∧ (ToBase64 ⟨[0], HashKind.DGHash, 10⟩
            = rawStdEncode (((⟨[0], HashKind.DGHash, 10⟩ : ExtImageHash).hash.flatMap
                wordToBytes).take
                  (((⟨[0], HashKind.DGHash, 10⟩ : ExtImageHash).bits + 7) / 8))
          ∧ (ToBase64 ⟨[0], HashKind.DGHash, 10⟩).length
              = (4 * (((⟨[0], HashKind.DGHash, 10⟩ : ExtImageHash).bits + 7) / 8) + 2) / 3
          ∧ '=' ∉ ToBase64 ⟨[0], HashKind.DGHash, 10⟩) :=
  ⟨by decide, toBase64_length_no_pad ⟨[0], HashKind.DGHash, 10⟩ (by decide)⟩

/-- One batch record of `findSimilarImages` (the `ImageInfo` struct): a source
path, the flag distinguishing `ExtImageHash` records from plain `ImageHash`
records (the kind discriminator the loop compares), and the hash itself,
abstracted over the hash type `H`. -/
structure ImageInfo (H : Type) where
  path : String
  isExt : Bool
  hash : H
deriving DecidableEq

/-- Inner scan of `findSimilarImages`: try every indexed record `(j, img2)`;
skip the seed itself, consumed records, records of the other hash kind and
records whose distance to the seed errors; add `img2` to the group and mark `j`
consumed when the distance is at most the threshold.  The distance function
`d` returns `none` for an error, mirroring `(distance, err)`. -/
def innerLoop {H : Type} (d : H → H → Option Int) (threshold : Int) (i : Nat)
    (img1 : ImageInfo H) :
    List (Nat × ImageInfo H) → (Nat → Bool) → List (Nat × ImageInfo H) →
      List (Nat × ImageInfo H) × (Nat → Bool)
  | [], proc, group => (group, proc)
  | (j, img2) :: rest, proc, group =>
    if i == j || proc j then innerLoop d threshold i img1 rest proc group
    else if img1.isExt != img2.isExt then innerLoop d threshold i img1 rest proc group
    else
      match d img1.hash img2.hash with
      | none => innerLoop d threshold i img1 rest proc group
      | some dist =>
        if dist ≤ threshold then
          innerLoop d threshold i img1 rest (fun k => k == j || proc k)
            (group ++ [(j, img2)])
        else innerLoop d threshold i img1 rest proc group

/-- Outer scan of `findSimilarImages`: each unconsumed record seeds a group,
is marked consumed, collects members via the inner scan over the whole indexed
list, and the group is kept only when it has more than one member. -/
def outerLoop {H : Type} (d : H → H → Option Int) (threshold : Int)
    (all : List (Nat × ImageInfo H)) :
    List (Nat × ImageInfo H) → (Nat → Bool) → List (List (Nat × ImageInfo H)) →
      List (List (Nat × ImageInfo H))
  | [], _, groups => groups
  | (i, img1) :: rest, proc, groups =>
    if proc i then outerLoop d threshold all rest proc groups
    else
      let res := innerLoop d threshold i img1 all
        (fun k => k == i || proc k) [(i, img1)]
      if res.1.length > 1 then outerLoop d threshold all rest res.2 (groups ++ [res.1])
      else outerLoop d threshold all rest res.2 groups

/-- `findSimilarImages` clustering with records paired with their input index
(the `i`, `j` of the Go loops), so multiplicity of input records is tracked. -/
def findSimilarImagesIdx {H : Type} (d : H → H → Option Int) (threshold : Int)
    (images : List (ImageInfo H)) : List (List (Nat × ImageInfo H)) :=
  outerLoop d threshold images.enum images.enum (fun _ => false) []

/-- The groups of similar images output by `findSimilarImages` (src/unnamed/
part_001): the indexed clustering with the bookkeeping indices dropped. -/
def findSimilarImages {H : Type} (d : H → H → Option Int) (threshold : Int)
    (images : List (ImageInfo H)) : List (List (ImageInfo H)) :=
  (findSimilarImagesIdx d threshold images).map (fun g => g.map Prod.snd)

/-- Full specification of the inner scan: it extends the group by a suffix of
records that were unconsumed, of the seed's kind, and within threshold of the
seed; consumption marks grow monotonically, exactly the appended records get
marked, and no record is appended twice. -/
theorem innerLoop_spec {H : Type} (d : H → H → Option Int) (t : Int) (i : Nat)
    (img1 : ImageInfo H) (l : List (Nat × ImageInfo H)) :
    ∀ (proc : Nat → Bool) (group : List (Nat × ImageInfo H)),
      ∃ suffix : List (Nat × ImageInfo H),
        (innerLoop d t i img1 l proc group).1 = group ++ suffix
        ∧ (∀ k, proc k = true → (innerLoop d t i img1 l proc group).2 k = true)
        ∧ (∀ p ∈ suffix, proc p.1 = false)
        ∧ (∀ p ∈ suffix, (innerLoop d t i img1 l proc group).2 p.1 = true)
        ∧ (suffix.map Prod.fst).Nodup
        ∧ (∀ p ∈ suffix, (p.2).isExt = img1.isExt
            ∧ ∃ k, d img1.hash (p.2).hash = some k ∧ k ≤ t) := by
  induction l with
  | nil =>
    intro proc group
    refine ⟨[], by simp [innerLoop], ?_, by simp, by simp, by simp, by simp⟩
    intro k hk
    simpa [innerLoop] using hk
  | cons q rest ih =>
    obtain ⟨j, img2⟩ := q
    intro proc group
    by_cases h1 : (i == j || proc j) = true
    · have hred : innerLoop d t i img1 ((j, img2) :: rest) proc group
          = innerLoop d t i img1 rest proc group := by
        simp only [innerLoop]
        rw [if_pos h1]
      rw [hred]
      exact ih proc group
    · have h1' : (i == j || proc j) = false := by
        revert h1
        cases hb : (i == j || proc j) <;> simp
      have hij : (i == j) = false ∧ proc j = false := by
        simpa using h1'
      by_cases h2 : (img1.isExt != img2.isExt) = true
      · have hred : innerLoop d t i img1 ((j, img2) :: rest) proc group
            = innerLoop d t i img1 rest proc group := by
          simp only [innerLoop]
          rw [if_neg h1, if_pos h2]
        rw [hred]
        exact ih proc group
      · have h2' : img1.isExt = img2.isExt := by
          rw [← bne_eq_false_iff_eq]
          revert h2
          cases hb : (img1.isExt != img2.isExt) <;> simp
        cases hd : d img1.hash img2.hash with
        | none =>
          have hred : innerLoop d t i img1 ((j, img2) :: rest) proc group
              = innerLoop d t i img1 rest proc group := by
            simp only [innerLoop, hd]
            rw [if_neg h1, if_neg h2]
          rw [hred]
          exact ih proc group
        | some dist =>
          by_cases h3 : dist ≤ t
          · have hred : innerLoop d t i img1 ((j, img2) :: rest) proc group
                = innerLoop d t i img1 rest (fun k => k == j || proc k)
                    (group ++ [(j, img2)]) := by
              simp only [innerLoop, hd]
              rw [if_neg h1, if_neg h2, if_pos h3]
            rw [hred]
            obtain ⟨suffix', e1, e2, e3, e4, e5, e6⟩ :=
              ih (fun k => k == j || proc k) (group ++ [(j, img2)])
            have hmarkj : (j == j || proc j) = true := by
              simp
            refine ⟨(j, img2) :: suffix', ?_, ?_, ?_, ?_, ?_, ?_⟩
            · rw [e1, List.append_assoc, List.singleton_append]
            · intro k hk
              exact e2 k (by simp [hk])
            · intro p hp
              rcases List.mem_cons.mp hp with hph | hpt
              · rw [hph]
                exact hij.2
              · have := e3 p hpt
                simp only [Bool.or_eq_false_iff] at this
                exact this.2
            · intro p hp
              rcases List.mem_cons.mp hp with hph | hpt
              · rw [hph]
                exact e2 j hmarkj
              · exact e4 p hpt
            · rw [List.map_cons]
              refine List.nodup_cons.mpr ⟨?_, e5⟩
              intro hmem
              rcases List.mem_map.mp hmem with ⟨p, hpt, hpj⟩
              have := e3 p hpt
              rw [hpj] at this
              rw [hmarkj] at this
              exact Bool.noConfusion this
            · intro p hp
              rcases List.mem_cons.mp hp with hph | hpt
              · rw [hph]
                exact ⟨h2'.symm, dist, hd, h3⟩
              · exact e6 p hpt
          · have hred : innerLoop d t i img1 ((j, img2) :: rest) proc group
                = innerLoop d t i img1 rest proc group := by
              simp only [innerLoop, hd]
              rw [if_neg h1, if_neg h2, if_neg h3]
            rw [hred]
            exact ih proc group

/-- Unfolding equation for one step of the outer scan. -/
theorem outerLoop_cons {H : Type} (d : H → H → Option Int) (t : Int)
    (all rest : List (Nat × ImageInfo H)) (i : Nat) (img1 : ImageInfo H)
    (proc : Nat → Bool) (groups : List (List (Nat × ImageInfo H))) :
    outerLoop d t all ((i, img1) :: rest) proc groups
      = if proc i = true then outerLoop d t all rest proc groups
        else
          if (innerLoop d t i img1 all (fun k => k == i || proc k) [(i, img1)]).1.length > 1
          then outerLoop d t all rest
            (innerLoop d t i img1 all (fun k => k == i || proc k) [(i, img1)]).2
            (groups ++ [(innerLoop d t i img1 all (fun k => k == i || proc k) [(i, img1)]).1])
          else outerLoop d t all rest
            (innerLoop d t i img1 all (fun k => k == i || proc k) [(i, img1)]).2 groups := by
  simp only [outerLoop]

/-- Every group the outer scan outputs beyond the accumulated ones has more
than one member. -/
theorem outerLoop_length {H : Type} (d : H → H → Option Int) (t : Int)
    (all : List (Nat × ImageInfo H)) (l : List (Nat × ImageInfo H)) :
    ∀ (proc : Nat → Bool) (groups : List (List (Nat × ImageInfo H))),
      (∀ g ∈ groups, 1 < g.length) →
      ∀ g ∈ outerLoop d t all l proc groups, 1 < g.length := by
  induction l with
  | nil =>
    intro proc groups hinv g hg
    exact hinv g (by simpa [outerLoop] using hg)
  | cons q rest ih =>
    obtain ⟨i, img1⟩ := q
    intro proc groups hinv g hg
    rw [outerLoop_cons] at hg
    by_cases hpi : proc i = true
    · rw [if_pos hpi] at hg
      exact ih proc groups hinv g hg
    · rw [if_neg hpi] at hg
      by_cases hlen :
          (innerLoop d t i img1 all (fun k => k == i || proc k) [(i, img1)]).1.length > 1
      · rw [if_pos hlen] at hg
        refine ih _ _ ?_ g hg
        intro g' hg'
        rcases List.mem_append.mp hg' with h | h
        · exact hinv g' h
        · rw [List.mem_singleton.mp h]
          exact hlen
      · rw [if_neg hlen] at hg
        exact ih _ _ hinv g hg

/-- Every group the outer scan outputs beyond the accumulated ones starts with
its seed, and every later member has the seed's kind and lies within the
threshold of the seed. -/
theorem outerLoop_mem {H : Type} (d : H → H → Option Int) (t : Int)
    (all : List (Nat × ImageInfo H)) (l : List (Nat × ImageInfo H)) :
    ∀ (proc : Nat → Bool) (groups : List (List (Nat × ImageInfo H))),
      (∀ g ∈ groups, ∃ seed tail, g = seed :: tail ∧
        ∀ p ∈ tail, (p.2).isExt = (seed.2).isExt
          ∧ ∃ k, d (seed.2).hash (p.2).hash = some k ∧ k ≤ t) →
      ∀ g ∈ outerLoop d t all l proc groups,
        ∃ seed tail, g = seed :: tail ∧
          ∀ p ∈ tail, (p.2).isExt = (seed.2).isExt
            ∧ ∃ k, d (seed.2).hash (p.2).hash = some k ∧ k ≤ t := by
  induction l with
  | nil =>
    intro proc groups hinv g hg
    exact hinv g (by simpa [outerLoop] using hg)
  | cons q rest ih =>
    obtain ⟨i, img1⟩ := q
    intro proc groups hinv g hg
    rw [outerLoop_cons] at hg
    by_cases hpi : proc i = true
    · rw [if_pos hpi] at hg
      exact ih proc groups hinv g hg
    · rw [if_neg hpi] at hg
      by_cases hlen :
          (innerLoop d t i img1 all (fun k => k == i || proc k) [(i, img1)]).1.length > 1
      · rw [if_pos hlen] at hg
        refine ih _ _ ?_ g hg
        intro g' hg'
        rcases List.mem_append.mp hg' with h | h
        · exact hinv g' h
        · obtain ⟨suffix, e1, _, _, _, _, e6⟩ :=
            innerLoop_spec d t i img1 all (fun k => k == i || proc k) [(i, img1)]
          rw [List.mem_singleton.mp h, e1, List.singleton_append]
          exact ⟨(i, img1), suffix, rfl, e6⟩
      · rw [if_neg hlen] at hg
        exact ih _ _ hinv g hg

/-- The indices of all groups the outer scan outputs are duplicate-free, given
that the accumulated groups' indices are duplicate-free and consumed. -/
theorem outerLoop_nodup {H : Type} (d : H → H → Option Int) (t : Int)
    (all : List (Nat × ImageInfo H)) (l : List (Nat × ImageInfo H)) :
    ∀ (proc : Nat → Bool) (groups : List (List (Nat × ImageInfo H))),
      (∀ idx ∈ (groups.map (fun g => g.map Prod.fst)).flatten, proc idx = true) →
      ((groups.map (fun g => g.map Prod.fst)).flatten).Nodup →
      ((outerLoop d t all l proc groups).map (fun g => g.map Prod.fst)).flatten.Nodup := by
  induction l with
  | nil =>
    intro proc groups _ hnd
    simpa [outerLoop] using hnd
  | cons q rest ih =>
    obtain ⟨i, img1⟩ := q
    intro proc groups hmark hnd
    rw [outerLoop_cons]
    by_cases hpi : proc i = true
    · rw [if_pos hpi]
      exact ih proc groups hmark hnd
    · rw [if_neg hpi]
      obtain ⟨suffix, e1, e2, e3, e4, e5, _⟩ :=
        innerLoop_spec d t i img1 all (fun k => k == i || proc k) [(i, img1)]
      have e3' : ∀ p ∈ suffix, (p.1 == i) = false ∧ proc p.1 = false := by
        intro p hp
        have := e3 p hp
        simpa using this
      have hmark2 : ∀ idx ∈ (groups.map (fun g => g.map Prod.fst)).flatten,
          (innerLoop d t i img1 all (fun k => k == i || proc k) [(i, img1)]).2 idx = true := by
        intro idx hidx
        exact e2 idx (by simp [hmark idx hidx])
      have hseedmark :
          (innerLoop d t i img1 all (fun k => k == i || proc k) [(i, img1)]).2 i = true :=
        e2 i (by simp)
      by_cases hlen :
          (innerLoop d t i img1 all (fun k => k == i || proc k) [(i, img1)]).1.length > 1
      · rw [if_pos hlen]
        rw [e1, List.singleton_append]
        refine ih _ _ ?_ ?_
        · intro idx hidx
          rw [List.map_append, List.flatten_append] at hidx
          rcases List.mem_append.mp hidx with h | h
          · exact hmark2 idx h
          · simp only [List.map_cons, List.map_nil, List.flatten_cons, List.flatten_nil,
              List.append_nil, List.map_cons] at h
            rcases List.mem_cons.mp h with h | h
            · rw [h]
              exact hseedmark
            · rcases List.mem_map.mp h with ⟨p, hp, rfl⟩
              exact e4 p hp
        · rw [List.map_append, List.flatten_append]
          rw [List.nodup_append]
          refine ⟨hnd, ?_, ?_⟩
          · simp only [List.map_cons, List.map_nil, List.flatten_cons, List.flatten_nil,
              List.append_nil, List.map_cons]
            refine List.nodup_cons.mpr ⟨?_, e5⟩
            intro hmem
            rcases List.mem_map.mp hmem with ⟨p, hp, hpi'⟩
            have := (e3' p hp).1
            rw [hpi'] at this
            rw [beq_self_eq_true] at this
            exact Bool.noConfusion this
          · intro a ha hb
            have hamark : proc a = true := hmark a ha
            simp only [List.map_cons, List.map_nil, List.flatten_cons, List.flatten_nil,
              List.append_nil, List.map_cons] at hb
            rcases List.mem_cons.mp hb with h | h
            · rw [h] at hamark
              exact hpi hamark
            · rcases List.mem_map.mp h with ⟨p, hp, rfl⟩
              have := (e3' p hp).2
              rw [hamark] at this
              exact Bool.noConfusion this
      · rw [if_neg hlen]
        exact ih _ _ hmark2 hnd

/-- A record index whose every occurrence in the scan list has a kind other
than the seed's is skipped by the inner scan: its consumed mark is unchanged,
so it remains available for a later seed of matching kind. -/
theorem innerLoop_skips_other_kind {H : Type} (d : H → H → Option Int) (t : Int) (i : Nat)
    (img1 : ImageInfo H) (l : List (Nat × ImageInfo H)) :
    ∀ (proc : Nat → Bool) (group : List (Nat × ImageInfo H)) (j : Nat),
      (∀ p ∈ l, p.1 = j → (p.2).isExt ≠ img1.isExt) →
      (innerLoop d t i img1 l proc group).2 j = proc j := by
  induction l with
  | nil =>
    intro proc group j _
    simp [innerLoop]
  | cons q rest ih =>
    obtain ⟨j0, img2⟩ := q
    intro proc group j hdiff
    have hdrest : ∀ p ∈ rest, p.1 = j → (p.2).isExt ≠ img1.isExt :=
      fun p hp => hdiff p (List.mem_cons_of_mem _ hp)
    by_cases h1 : (i == j0 || proc j0) = true
    · have hred : innerLoop d t i img1 ((j0, img2) :: rest) proc group
          = innerLoop d t i img1 rest proc group := by
        simp only [innerLoop]
        rw [if_pos h1]
      rw [hred]
      exact ih proc group j hdrest
    · by_cases h2 : (img1.isExt != img2.isExt) = true
      · have hred : innerLoop d t i img1 ((j0, img2) :: rest) proc group
            = innerLoop d t i img1 rest proc group := by
          simp only [innerLoop]
          rw [if_neg h1, if_pos h2]
        rw [hred]
        exact ih proc group j hdrest
      · have h2' : img1.isExt = img2.isExt := by
          rw [← bne_eq_false_iff_eq]
          revert h2
          cases hb : (img1.isExt != img2.isExt) <;> simp
        have hne : j0 ≠ j := by
          intro he
          exact hdiff (j0, img2) (List.mem_cons_self _ _) he h2'.symm
        cases hd : d img1.hash img2.hash with
        | none =>
          have hred : innerLoop d t i img1 ((j0, img2) :: rest) proc group
              = innerLoop d t i img1 rest proc group := by
            simp only [innerLoop, hd]
            rw [if_neg h1, if_neg h2]
          rw [hred]
          exact ih proc group j hdrest
        | some dist =>
          by_cases h3 : dist ≤ t
          · have hred : innerLoop d t i img1 ((j0, img2) :: rest) proc group
                = innerLoop d t i img1 rest (fun k => k == j0 || proc k)
                    (group ++ [(j0, img2)]) := by
              simp only [innerLoop, hd]
              rw [if_neg h1, if_neg h2, if_pos h3]
            rw [hred]
            rw [ih (fun k => k == j0 || proc k) (group ++ [(j0, img2)]) j hdrest]
            simp [beq_eq_false_iff_ne.mpr (Ne.symm hne)]
          · have hred : innerLoop d t i img1 ((j0, img2) :: rest) proc group
                = innerLoop d t i img1 rest proc group := by
              simp only [innerLoop, hd]
              rw [if_neg h1, if_neg h2, if_neg h3]
            rw [hred]
            exact ih proc group j hdrest

/-- C6: in every output group of the clustering, the seed is the first record
of the group in input order and every non-seed member has the seed's kind and
distance at most the threshold to the seed — membership is determined solely
by distance to the seed; moreover a scanned record of a different kind than
the seed keeps its consumed mark unchanged, remaining available for a later
seed of matching kind. -/
theorem cluster_members_within_threshold {H : Type} (d : H → H → Option Int) (t : Int)
    (images : List (ImageInfo H)) (g : List (ImageInfo H))
    (hg : g ∈ findSimilarImages d t images) :
    (∃ seed tail, g = seed :: tail ∧
        ∀ s ∈ tail, s.isExt = seed.isExt ∧ ∃ k, d seed.hash s.hash = some k ∧ k ≤ t)
      ∧ ∀ (i : Nat) (img1 : ImageInfo H) (l : List (Nat × ImageInfo H))
          (proc : Nat → Bool) (grp : List (Nat × ImageInfo H)) (j : Nat),
          (∀ p ∈ l, p.1 = j → (p.2).isExt ≠ img1.isExt) →
          (innerLoop d t i img1 l proc grp).2 j = proc j := by
  refine ⟨?_, fun i img1 l proc grp j hdiff =>
    innerLoop_skips_other_kind d t i img1 l proc grp j hdiff⟩
  unfold findSimilarImages findSimilarImagesIdx at hg
  rcases List.mem_map.mp hg with ⟨gIdx, hgIdx, rfl⟩
  obtain ⟨seed, tail, rfl, hprop⟩ :=
    outerLoop_mem d t images.enum images.enum (fun _ => false) [] (by simp) gIdx hgIdx
  refine ⟨seed.2, tail.map Prod.snd, by simp, ?_⟩
  intro s hs
  rcases List.mem_map.mp hs with ⟨p, hp, rfl⟩
  exact hprop p hp

/-- C6 witness: the membership theorem applied to a concrete two-record run
that produces one group. -/
theorem cluster_members_within_threshold_witness :
    ([⟨"a", true, 0⟩, ⟨"b", true, 1⟩] : List (ImageInfo Nat))
        ∈ findSimilarImages (fun _ _ => some 0) 0 [⟨"a", true, 0⟩, ⟨"b", true, 1⟩]
      ∧ ((∃ seed tail,
          ([⟨"a", true, 0⟩, ⟨"b", true, 1⟩] : List (ImageInfo Nat)) = seed :: tail
          ∧ ∀ s ∈ tail, s.isExt = seed.isExt
              ∧ ∃ k, (fun _ _ => some 0 : Nat → Nat → Option Int) seed.hash s.hash = some k
                  ∧ k ≤ 0)
        ∧ ∀ (i : Nat) (img1 : ImageInfo Nat) (l : List (Nat × ImageInfo Nat))
            (proc : Nat → Bool) (grp : List (Nat × ImageInfo Nat)) (j : Nat),
            (∀ p ∈ l, p.1 = j → (p.2).isExt ≠ img1.isExt) →
            (innerLoop (fun _ _ => some 0) 0 i img1 l proc grp).2 j = proc j) :=
  ⟨by decide,
    cluster_members_within_threshold (fun _ _ => some 0) 0
      [⟨"a", true, 0⟩, ⟨"b", true, 1⟩] [⟨"a", true, 0⟩, ⟨"b", true, 1⟩] (by decide)⟩

/-- C7: every group the clustering outputs has more than one member; singleton
seeds are dropped. -/
theorem cluster_no_singletons {H : Type} (d : H → H → Option Int) (t : Int)
    (images : List (ImageInfo H)) (g : List (ImageInfo H))
    (hg : g ∈ findSimilarImages d t images) : 1 < g.length := by
  unfold findSimilarImages findSimilarImagesIdx at hg
  rcases List.mem_map.mp hg with ⟨gIdx, hgIdx, rfl⟩
  rw [List.length_map]
  exact outerLoop_length d t images.enum images.enum (fun _ => false) [] (by simp) gIdx hgIdx

/-- C7 witness: the no-singleton theorem applied to a concrete two-record run. -/
theorem cluster_no_singletons_witness :
    ([⟨"a", true, 0⟩, ⟨"b", true, 1⟩] : List (ImageInfo Nat))
        ∈ findSimilarImages (fun _ _ => some 0) 0 [⟨"a", true, 0⟩, ⟨"b", true, 1⟩]
      ∧ 1 < ([⟨"a", true, 0⟩, ⟨"b", true, 1⟩] : List (ImageInfo Nat)).length :=
  ⟨by decide,
    cluster_no_singletons (fun _ _ => some 0) 0
      [⟨"a", true, 0⟩, ⟨"b", true, 1⟩] [⟨"a", true, 0⟩, ⟨"b", true, 1⟩] (by decide)⟩

/-- C9: the clustering is deterministic: two runs on the same input sequence
with the same threshold produce identical group sequences — the function has
no hidden state or randomness. -/
theorem cluster_deterministic {H : Type} (d : H → H → Option Int)
    (t1 t2 : Int) (images1 images2 : List (ImageInfo H))
    (ht : t1 = t2) (himgs : images1 = images2) :
    findSimilarImages d t1 images1 = findSimilarImages d t2 images2 := by
  rw [ht, himgs]

/-- C9 witness: the determinism theorem applied to a concrete repeated run. -/
theorem cluster_deterministic_witness :
    (0 : Int) = 0
      ∧ ([⟨"a", true, 0⟩, ⟨"b", true, 1⟩] : List (ImageInfo Nat))
          = [⟨"a", true, 0⟩, ⟨"b", true, 1⟩]
      ∧ findSimilarImages (fun _ _ => some 0) 0 [⟨"a", true, 0⟩, ⟨"b", true, 1⟩]
          = findSimilarImages (fun _ _ => some 0) 0 [⟨"a", true, 0⟩, ⟨"b", true, 1⟩] :=
  ⟨rfl, rfl,
    cluster_deterministic (fun _ _ => some 0) 0 0
      [⟨"a", true, 0⟩, ⟨"b", true, 1⟩] [⟨"a", true, 0⟩, ⟨"b", true, 1⟩] rfl rfl⟩

/-- C10: the output groups are pairwise disjoint and duplicate-free: over the
index-tracked clustering, the concatenation of all group index lists has no
duplicate, so no input record occurrence lands in two groups or twice in one;
dropping the indices yields exactly the output groups. -/
theorem cluster_groups_disjoint {H : Type} (d : H → H → Option Int) (t : Int)
    (images : List (ImageInfo H)) :
    (((findSimilarImagesIdx d t images).map (fun g => g.map Prod.fst)).flatten).Nodup
      ∧ findSimilarImages d t images
          = (findSimilarImagesIdx d t images).map (fun g => g.map Prod.snd) := by
  refine ⟨?_, rfl⟩
  unfold findSimilarImagesIdx
  exact outerLoop_nodup d t images.enum images.enum (fun _ => false) [] (by simp) (by simp)

end GoImgHash
